import Mathlib

/-!
Shallow embedding of the circuit editor's netlist-consolidation core
(`app.js`: `computeNetMapping`, `generateNetlist`, `runSim`, `probePort`,
`UF_custom`, `getOrCreateNodeAt`, `handleWirePortClick`,
`handleWireNodeClick`, `pickLowerNode`, `snap`, `nextName`,
`defaultValue`), together with an explicit editor-state transition system
for the interactive operations the claims mention.

Modelling conventions:
* JS strings are `String`; a terminal label that is `undefined` is `none`
  (the editor stores `undefined` instead of the empty string, so `none`
  also covers `''`).
* JS numbers are `ℚ` (the editor only produces finite decimal values;
  `NaN`/string values reachable through the raw `prompt` path are outside
  the model and noted where relevant).
* A JS object used as a dictionary is an insertion-ordered association
  list (own keys only; prototype-chain artifacts of `in` are not
  modelled).  `Object.keys` enumeration order is array-index-like keys in
  ascending numeric order followed by the remaining keys in insertion
  order, as implemented by `jsKeys` below.
* The number→string conversion for the integers appearing in ids and
  node names is decimal, implemented by `decRepr`; the exact float
  formatting of non-integer component values in the netlist text is
  abstracted by `numStr` (no claim depends on its digits).
-/

namespace Circuit

/-! ### Decimal rendering of naturals (JS `Number` → string for ids) -/

/-- Digit list of `n` in base 10, most significant first; `fuel`-driven so
that the kernel can evaluate it. -/
def decDigitsF : Nat → Nat → List Char
  | 0, _ => []
  | fuel+1, n =>
    if n < 10 then [Nat.digitChar n]
    else decDigitsF fuel (n / 10) ++ [Nat.digitChar (n % 10)]

/-- Decimal string of a natural number (`String(n)` in JS). -/
def decRepr (n : Nat) : String := ⟨decDigitsF (n + 1) n⟩

/-- Decimal string of an integer. -/
def intStr (i : Int) : String :=
  if i < 0 then "-" ++ decRepr i.natAbs else decRepr i.natAbs

/-- Rendering of a JS number used in netlist text.  Integers print as
decimal; for non-integral rationals the format is abstracted (the source
relies on JS float formatting, which no claim inspects). -/
def numStr (q : ℚ) : String :=
  if q.den = 1 then intStr q.num else intStr q.num ++ "/" ++ decRepr q.den

/-! ### Data model -/

/-- Component kind: the tools offered by the palette
(`'R','V','I','C','L','D'`); every placed component has one of these. -/
inductive CType where
  | R | V | I | C | L | D
deriving DecidableEq, Repr

/-- A placed component (`comps` entry).  Geometry fields (`x1,y1,x2,y2`,
`rot`) are omitted: no resolution pass or claim reads them. -/
structure Comp where
  type : CType
  name : String
  n1 : Option String
  n2 : Option String
  value : Option ℚ
deriving DecidableEq, Repr

/-- Terminal slot of a two-terminal component. -/
inductive Slot where
  | n1 | n2
deriving DecidableEq, Repr

def slotStr : Slot → String
  | .n1 => "n1"
  | .n2 => "n2"

def labelAt (c : Comp) : Slot → Option String
  | .n1 => c.n1
  | .n2 => c.n2

def setLabel (c : Comp) (sl : Slot) (v : Option String) : Comp :=
  match sl with
  | .n1 => { c with n1 := v }
  | .n2 => { c with n2 := v }

/-- Identity key of a terminal: `c[k] || (c.name + '_' + k)`. -/
def keyOf (c : Comp) (sl : Slot) : String :=
  (labelAt c sl).getD (c.name ++ "_" ++ slotStr sl)

/-- A wire endpoint: either an auto-node reference (`isNode: true`,
carrying `nodeId`) or a component-port reference (`comp`/`port`). -/
inductive EP where
  | node (nid : String)
  | port (cname : String) (slot : Slot)
deriving DecidableEq, Repr

/-- An auto-node (`autoNodes` entry) `{id, x, y}`. -/
structure NodeJ where
  id : String
  x : Int
  y : Int
deriving DecidableEq, Repr

/-- A wire `{id, p1, p2}` (geometry and `ortho` omitted — unread by any
resolution pass). -/
structure Wire where
  id : String
  p1 : EP
  p2 : EP
deriving DecidableEq, Repr

/-- The circuit document: the three global collections every resolution
pass reads. -/
structure Doc where
  comps : List Comp
  wires : List Wire
  autoNodes : List NodeJ
deriving DecidableEq, Repr

/-! ### Union-find (`UF_custom` and the identical closure in
`computeNetMapping`/`generateNetlist`) -/

/-- The union-find dictionary: insertion-ordered key list plus parent
assignment (keys outside `dom` are absent from the JS object). -/
structure UFS where
  dom : List String
  par : String → String

def UFS.empty : UFS := ⟨[], fun k => k⟩

/-- Total parent step: a key absent from the dictionary is its own
parent (it would be lazily registered). -/
def pstep (uf : UFS) (k : String) : String :=
  if k ∈ uf.dom then uf.par k else k

def insertKey (uf : UFS) (a : String) : UFS :=
  ⟨uf.dom ++ [a], fun k => if k = a then a else uf.par k⟩

def setPar (uf : UFS) (a r : String) : UFS :=
  ⟨uf.dom, fun k => if k = a then r else uf.par k⟩

/-- Source `find(a){ if(!(a in uf)) uf[a]=a; return uf[a]===a ? a : (uf[a]=find(uf[a])); }`
with explicit fuel for the recursion along the parent chain. -/
def findAux : Nat → UFS → String → String × UFS
  | 0, uf, a => (a, uf)
  | fuel+1, uf, a =>
    if a ∈ uf.dom then
      if uf.par a = a then (a, uf)
      else
        let p := findAux fuel uf (uf.par a)
        (p.1, setPar p.2 a p.1)
    else (a, insertKey uf a)

/-- The call `find` with enough fuel for any acyclic parent structure over `dom`. -/
def find (uf : UFS) (a : String) : String × UFS :=
  findAux (uf.dom.length + 1) uf a

/-- Source `union(a,b){ const ra=find(a), rb=find(b); if(ra!==rb) uf[rb]=ra; }` -/
def union (uf : UFS) (a b : String) : UFS :=
  let pa := find uf a
  let pb := find pa.2 b
  if pa.1 = pb.1 then pb.2 else setPar pb.2 pb.1 pa.1

/-! ### JS-object key enumeration order -/

/-- First lookup in an insertion-ordered association list. -/
def lookupAssoc (l : List (String × α)) (k : String) : Option α :=
  (l.find? (fun e => e.1 == k)).map (·.2)

/-- Numeric value of a digit character. -/
def digitVal (c : Char) : Nat := c.toNat - 48

/-- Base-10 value of a digit list (most significant first). -/
def decListNat (l : List Char) : Nat :=
  l.foldl (fun n c => n * 10 + digitVal c) 0

/-- Parse a string of decimal digits (kernel-evaluable replacement for
the standard library's string-to-number parser). -/
def strToNat? (s : String) : Option Nat :=
  if !s.data.isEmpty && s.data.all (fun c => c.isDigit) then some (decListNat s.data)
  else none

/-- Whether a string is a canonical array-index key (`"0"`, `"17"`, …,
below `2^32 - 1`): such keys enumerate first, in numeric order. -/
def isArrayIndex (s : String) : Bool :=
  match strToNat? s with
  | some n => (decRepr n == s) && decide (n < 4294967295)
  | none => false

def keyNum (s : String) : Nat := (strToNat? s).getD 0

def insertNum (x : String) : List String → List String
  | [] => [x]
  | y :: ys => if keyNum x ≤ keyNum y then x :: y :: ys else y :: insertNum x ys

def sortNum (l : List String) : List String := l.foldr insertNum []

/-- The `Object.keys` order for a dictionary with the given insertion-ordered
key list. -/
def jsKeys (ks : List String) : List String :=
  sortNum (ks.filter (fun k => isArrayIndex k)) ++
    ks.filter (fun k => !isArrayIndex k)

/-! ### The shared resolution pipeline -/

/-- Wire-endpoint key as computed inside `generateNetlist`
(`(aComp && (aComp[port] || (aComp.name+'_'+port))) || (w.p.comp+'_'+port)`). -/
def epKeyGN (cs : List Comp) : EP → String
  | .node nid => nid
  | .port cn sl =>
    match cs.find? (fun c => c.name == cn) with
    | some c => (labelAt c sl).getD (c.name ++ "_" ++ slotStr sl)
    | none => cn ++ "_" ++ slotStr sl

/-- Wire-endpoint key as computed inside `computeNetMapping`, `runSim` and
`probePort` (`((comps.find(...)||{})[port] || (w.p.comp+'_'+port))`). -/
def epKeySim (cs : List Comp) : EP → String
  | .node nid => nid
  | .port cn sl =>
    match cs.find? (fun c => c.name == cn) with
    | some c => (labelAt c sl).getD (cn ++ "_" ++ slotStr sl)
    | none => cn ++ "_" ++ slotStr sl

/-- Registration of one component's two terminal keys. -/
def regComp (uf : UFS) (c : Comp) : UFS :=
  (find (find uf (keyOf c .n1)).2 (keyOf c .n2)).2

/-- Registration phase: `comps.forEach(find both keys)` then
`autoNodes.forEach(find id)`, starting from a fresh dictionary. -/
def regPass (d : Doc) : UFS :=
  d.autoNodes.foldl (fun uf n => (find uf n.id).2) (d.comps.foldl regComp UFS.empty)

def unionWiresGN (cs : List Comp) (uf : UFS) (ws : List Wire) : UFS :=
  ws.foldl (fun uf w => union uf (epKeyGN cs w.p1) (epKeyGN cs w.p2)) uf

def unionWiresSim (cs : List Comp) (uf : UFS) (ws : List Wire) : UFS :=
  ws.foldl (fun uf w => union uf (epKeySim cs w.p1) (epKeySim cs w.p2)) uf

/-- Source `if(lbl === '0' || c[k] === '0')` — the ground test for one terminal. -/
def isGroundLbl (c : Comp) (sl : Slot) : Bool :=
  (keyOf c sl == "0") || (labelAt c sl == some "0")

/-- One `if(!(r in reps)) reps[r] = g ? '0' : null` step, with the
`find` threading its path compression through the shared dictionary. -/
def repsStep (acc : UFS × List (String × Option String)) (lbl : String) (g : Bool) :
    UFS × List (String × Option String) :=
  let p := find acc.1 lbl
  if (lookupAssoc acc.2 p.1).isSome then (p.2, acc.2)
  else (p.2, acc.2 ++ [(p.1, if g then some "0" else none)])

def repsComps (acc : UFS × List (String × Option String)) (cs : List Comp) :
    UFS × List (String × Option String) :=
  cs.foldl (fun acc c =>
    repsStep (repsStep acc (keyOf c .n1) (isGroundLbl c .n1)) (keyOf c .n2) (isGroundLbl c .n2)) acc

def repsNodes (acc : UFS × List (String × Option String)) (ns : List NodeJ) :
    UFS × List (String × Option String) :=
  ns.foldl (fun acc n => repsStep acc n.id false) acc

/-- Source `Object.keys(reps).forEach(r=>{ if(reps[r]===null) reps[r]='N'+(idx++); })`:
the finalized representative→node-name table. -/
def assignNames (reps0 : List (String × Option String)) : List (String × String) :=
  ((jsKeys (reps0.map (·.1))).foldl
    (fun (acc : List (String × String) × Nat) r =>
      match lookupAssoc reps0 r with
      | some none => (acc.1 ++ [(r, "N" ++ decRepr acc.2)], acc.2 + 1)
      | some (some s) => (acc.1 ++ [(r, s)], acc.2)
      | none => acc)
    ([], 1)).1

/-- The resolution prefix of `generateNetlist` (registration, wire unions
with `epKeyGN`, representative table, name assignment). -/
def resolveGN (d : Doc) : UFS × List (String × String) :=
  let uf0 := regPass d
  let uf1 := unionWiresGN d.comps uf0 d.wires
  let acc := repsNodes (repsComps (uf1, []) d.comps) d.autoNodes
  (acc.1, assignNames acc.2)

/-- The resolution prefix of `runSim`/`probePort` (and, but for the final
map construction, of `computeNetMapping`). -/
def resolveSim (d : Doc) : UFS × List (String × String) :=
  let uf0 := regPass d
  let uf1 := unionWiresSim d.comps uf0 d.wires
  let acc := repsNodes (repsComps (uf1, []) d.comps) d.autoNodes
  (acc.1, assignNames acc.2)

/-- Source `computeNetMapping()`: the key→node-name map used by the overlay and
the port tags. -/
def computeNetMapping (d : Doc) : List (String × String) :=
  let uf0 := regPass d
  let uf1 := unionWiresSim d.comps uf0 d.wires
  let acc := repsNodes (repsComps (uf1, []) d.comps) d.autoNodes
  let reps := assignNames acc.2
  ((jsKeys acc.1.dom).foldl
    (fun (st : UFS × List (String × String)) k =>
      let p := find st.1 k
      match lookupAssoc reps p.1 with
      | some nm => (p.2, st.2 ++ [(k, nm)])
      | none => (p.2, st.2))
    (acc.1, [])).2

/-! ### Netlist text, solver payload, probe -/

/-- Source `c.value || dflt` (JS `||`: `undefined`, and the number `0`, fall to
the default). -/
def jsOrQ (v : Option ℚ) (dflt : ℚ) : ℚ :=
  match v with
  | none => dflt
  | some x => if x = 0 then dflt else x

/-- Source `defaultValue(t)` (line 530). -/
def defaultValue : CType → ℚ
  | .R => 1000
  | .V => 5
  | .I => 1/1000
  | .C => 1/1000000
  | .L => 1/1000
  | .D => 0

/-- The trailing token of a netlist line (the rendered value, or the
literal model name for a diode). -/
def lineTail (c : Comp) : String :=
  match c.type with
  | .R => numStr (jsOrQ c.value 1000)
  | .V => numStr (jsOrQ c.value 5)
  | .I => numStr (jsOrQ c.value (1/1000))
  | .C => numStr (jsOrQ c.value (1/1000000))
  | .L => numStr (jsOrQ c.value (1/1000))
  | .D => "Dmodel"

/-- One emitted netlist line (lines 574–579). -/
def mkLine (c : Comp) (n1 n2 : String) : String :=
  match c.type with
  | .R => c.name ++ " " ++ n1 ++ " " ++ n2 ++ " " ++ numStr (jsOrQ c.value 1000)
  | .V => c.name ++ " " ++ n1 ++ " " ++ n2 ++ " DC " ++ numStr (jsOrQ c.value 5)
  | .I => c.name ++ " " ++ n1 ++ " " ++ n2 ++ " DC " ++ numStr (jsOrQ c.value (1/1000))
  | .C => c.name ++ " " ++ n1 ++ " " ++ n2 ++ " " ++ numStr (jsOrQ c.value (1/1000000))
  | .L => c.name ++ " " ++ n1 ++ " " ++ n2 ++ " " ++ numStr (jsOrQ c.value (1/1000))
  | .D => c.name ++ " " ++ n1 ++ " " ++ n2 ++ " Dmodel"

/-- One step of the emission loop: resolve the two terminals (threading
the `find` mutations) and append the line. -/
def emitStep (reps : List (String × String)) (acc : UFS × List String) (c : Comp) :
    UFS × List String :=
  let p1 := find acc.1 (keyOf c .n1)
  let n1 := (lookupAssoc reps p1.1).getD "0"
  let p2 := find p1.2 (keyOf c .n2)
  let n2 := (lookupAssoc reps p2.1).getD "0"
  (p2.2, acc.2 ++ [mkLine c n1 n2])

/-- Source `generateNetlist()`: the SPICE-like text, with the emission loop's
`find` calls threaded through the dictionary exactly as in the source. -/
def generateNetlist (d : Doc) : String :=
  let r := resolveGN d
  String.intercalate "\n" ((d.comps.foldl (emitStep r.2) (r.1, [])).2)

/-- The node name `generateNetlist` computes for one terminal
(`reps[find(c[k] || (c.name+'_'+k))] || '0'`, lines 572–573). -/
def gnNode (d : Doc) (c : Comp) (sl : Slot) : String :=
  let r := resolveGN d
  (lookupAssoc r.2 (find r.1 (keyOf c sl)).1).getD "0"

/-- One entry of the `/simulate` request body
(`{type, name, n1, n2, value: c.value}`). -/
structure SimComp where
  type : CType
  name : String
  n1 : String
  n2 : String
  value : Option ℚ
deriving DecidableEq, Repr

/-- One step of the payload loop (`comps.map` body of line 599, with the
`find` mutations threaded). -/
def simStep (reps : List (String × String)) (acc : UFS × List SimComp) (c : Comp) :
    UFS × List SimComp :=
  let p1 := find acc.1 (keyOf c .n1)
  let n1 := (lookupAssoc reps p1.1).getD "0"
  let p2 := find p1.2 (keyOf c .n2)
  let n2 := (lookupAssoc reps p2.1).getD "0"
  (p2.2, acc.2 ++ [⟨c.type, c.name, n1, n2, c.value⟩])

/-- Source `runSim`'s outbound payload (`payload.components`, line 599). -/
def runSim (d : Doc) : List SimComp :=
  let r := resolveSim d
  (d.comps.foldl (simStep r.2) (r.1, [])).2

/-- Source `probePort(comp, which)` with a cached result's `node_voltages` map:
returns the resolved node name and the reported voltage
(`nv[nodeName] ?? nv['0'] ?? 0`). -/
def probePort (d : Doc) (c : Comp) (which : Slot) (nv : List (String × ℚ)) :
    String × ℚ :=
  let r := resolveSim d
  let portLabel := (find r.1 (keyOf c which)).1
  let nodeName := (lookupAssoc r.2 portLabel).getD "0"
  ((nodeName), ((lookupAssoc nv nodeName).orElse (fun _ => lookupAssoc nv "0")).getD 0)

/-! ### Editor state and interactive operations -/

/-- The mutable editor globals the claims touch: the document collections,
the wire id counter and the pending wiring endpoint (`activePort`).
(`mode`, `placing`, `selected`, drag state and geometry are not read by
any claim.) -/
structure EState where
  comps : List Comp
  wires : List Wire
  autoNodes : List NodeJ
  idCounter : Nat
  activePort : Option EP
deriving DecidableEq, Repr

def EState.doc (s : EState) : Doc := ⟨s.comps, s.wires, s.autoNodes⟩

/-- Initial editor state (`comps=[], wires=[], autoNodes=[], idCounter=1`). -/
def initState : EState := ⟨[], [], [], 1, none⟩

/-- Source `snap(v) = Math.round(v/20)*20` for the integral pointer coordinates
used here (`Math.round` sends halves toward `+∞`). -/
def snap (v : Int) : Int := ((v + 10).fdiv 20) * 20

def typeStr : CType → String
  | .R => "R"
  | .V => "V"
  | .I => "I"
  | .C => "C"
  | .L => "L"
  | .D => "D"

def nameUsed (cs : List Comp) (nm : String) : Bool :=
  (cs.find? (fun c => c.name == nm)).isSome

/-- Source `nextName(prefix)`: smallest positive index whose name is unused (a
fresh index exists among the first `length+1` candidates, so the final
fallback never fires). -/
def nextName (cs : List Comp) (pre : String) : String :=
  (((List.range (cs.length + 1)).map (fun i => pre ++ decRepr (i + 1))).find?
      (fun nm => !nameUsed cs nm)).getD (pre ++ decRepr (cs.length + 1))

/-- Completing a two-click placement (lines 506–507/525–526): the new
component gets default terminal labels `name_n1`/`name_n2` and the
type's default value. -/
def placeComp (s : EState) (ty : CType) : EState :=
  let nm := nextName s.comps (typeStr ty)
  { s with comps := s.comps ++
      [⟨ty, nm, some (nm ++ "_n1"), some (nm ++ "_n2"), some (defaultValue ty)⟩] }

/-- Update the (unique) component of the given name in place. -/
def updateComp (cs : List Comp) (cname : String) (f : Comp → Comp) : List Comp :=
  cs.map (fun c => if c.name == cname then f c else c)

/-- Ground tool click on a port (line 340): `comp[which] = '0'`. -/
def gndClick (s : EState) (cname : String) (sl : Slot) : EState :=
  { s with comps := updateComp s.comps cname (fun c => setLabel c sl (some "0")) }

/-- Source `handleWirePortClick` (lines 355–392): first click arms `activePort`;
a second click on the same port cancels; a node–port pair rewrites the
port's label to the node id; a port–port pair pushes a wire and rewrites
BOTH terminals' labels to the first port's key `nameA`. -/
def handleWirePortClick (s : EState) (cname : String) (sl : Slot) : EState :=
  match s.activePort with
  | none => { s with activePort := some (.port cname sl) }
  | some (.node nid) =>
    { s with
      comps := updateComp s.comps cname (fun c => setLabel c sl (some nid)),
      wires := s.wires ++ [⟨"W" ++ decRepr s.idCounter, .node nid, .port cname sl⟩],
      idCounter := s.idCounter + 1,
      activePort := none }
  | some (.port acomp aslot) =>
    if acomp = cname ∧ aslot = sl then { s with activePort := none }
    else
      match s.comps.find? (fun c => c.name == acomp),
            s.comps.find? (fun c => c.name == cname) with
      | some compA, some _ =>
        let nameA := (labelAt compA aslot).getD (compA.name ++ "_" ++ slotStr aslot)
        { s with
          comps := updateComp
            (updateComp s.comps acomp (fun c => setLabel c aslot (some nameA)))
            cname (fun c => setLabel c sl (some nameA)),
          wires := s.wires ++ [⟨"W" ++ decRepr s.idCounter, .port acomp aslot, .port cname sl⟩],
          idCounter := s.idCounter + 1,
          activePort := none }
      | _, _ => s

/-- Source `s.replace(/^N/i,'')`: strip one leading `N`/`n`. -/
def stripN (s : String) : String :=
  match s.data with
  | c :: rest => if c = 'N' ∨ c = 'n' then ⟨rest⟩ else s
  | [] => s

/-- Leading-digits `parseInt` (sufficient for the `N<digits>` node ids
this is applied to; sign/whitespace/radix handling is irrelevant here). -/
def jsParseIntNat (s : String) : Option Nat :=
  let ds := s.data.takeWhile (fun c => c.isDigit)
  if ds.isEmpty then none else some (decListNat ds)

/-- Source `parseInt((a||'').replace(/^N/i,'')) || Infinity`: `NaN` and `0` are
falsy, so both become `Infinity` (`none`). -/
def rankOf (s : String) : Option Nat :=
  match jsParseIntNat (stripN s) with
  | none => none
  | some 0 => none
  | some n => some n

def leInf : Option Nat → Option Nat → Bool
  | _, none => true
  | none, some _ => false
  | some a, some b => Nat.ble a b

/-- Source `pickLowerNode(a,b)` (lines 38–44). -/
def pickLowerNode (a b : String) : String :=
  if a = "0" ∨ b = "0" then "0"
  else if leInf (rankOf a) (rankOf b) then a else b

def relabelDrop (c : Comp) (sl : Slot) (drop keep : String) : Comp :=
  if labelAt c sl == some drop then setLabel c sl (some keep) else c

def epDrop (p : EP) (drop keep : String) : EP :=
  match p with
  | .node nid => if nid = drop then .node keep else .node nid
  | .port cn sl => .port cn sl

/-- Source `handleWireNodeClick` (lines 394–422): first click arms the node;
otherwise push a wire, then — for a node–node pair — merge the two
junctions (keep the lower id, rewrite labels and wire endpoints, remove
the dropped junction), or — for a port–node pair — rewrite the port's
label to the node id. -/
def handleWireNodeClick (s : EState) (nid : String) : EState :=
  match s.activePort with
  | none => { s with activePort := some (.node nid) }
  | some a =>
    let s1 : EState :=
      { s with
        wires := s.wires ++ [⟨"W" ++ decRepr s.idCounter, a, .node nid⟩],
        idCounter := s.idCounter + 1 }
    let s2 : EState :=
      match a with
      | .node anid =>
        let keep := pickLowerNode anid nid
        let drop := if keep = anid then nid else anid
        { s1 with
          comps := s1.comps.map (fun c =>
            relabelDrop (relabelDrop c .n1 drop keep) .n2 drop keep),
          wires := s1.wires.map (fun w => ⟨w.id, epDrop w.p1 drop keep, epDrop w.p2 drop keep⟩),
          autoNodes := s1.autoNodes.filter (fun n => n.id ≠ drop) }
      | .port acomp aslot =>
        { s1 with comps := updateComp s1.comps acomp (fun c => setLabel c aslot (some nid)) }
    { s2 with activePort := none }

/-- Source `getOrCreateNodeAt(x,y)` (lines 28–35). -/
def getOrCreateNodeAt (s : EState) (x y : Int) : String × EState :=
  let gx := snap x
  let gy := snap y
  match s.autoNodes.find? (fun n => n.x == gx && n.y == gy) with
  | some n => (n.id, s)
  | none =>
    let newId := "N" ++ decRepr (s.autoNodes.length + 1)
    (newId, { s with autoNodes := s.autoNodes ++ [⟨newId, gx, gy⟩] })

/-- Canvas click in wire mode (lines 513–517): resolve/create the
junction at the snapped point, then run the node-click gesture on it. -/
def clickCanvasW (s : EState) (x y : Int) : EState :=
  let p := getOrCreateNodeAt s x y
  handleWireNodeClick p.2 p.1

/-- Wire deletion (panel button, line 440 / `deleteSelected`). -/
def deleteWire (s : EState) (wid : String) : EState :=
  { s with wires := s.wires.filter (fun w => w.id ≠ wid) }

def epRefsComp (p : EP) (cname : String) : Bool :=
  match p with
  | .node _ => false
  | .port cn _ => cn == cname

/-- Source `deleteComponent` (line 498): drop wires touching the component, then
the component itself. -/
def deleteComponent (s : EState) (cname : String) : EState :=
  { s with
    wires := s.wires.filter (fun w => !epRefsComp w.p1 cname && !epRefsComp w.p2 cname),
    comps := s.comps.filter (fun c => c.name ≠ cname) }

/-- Source `Escape` (line 676): clears the pending wiring endpoint. -/
def escapeKey (s : EState) : EState := { s with activePort := none }

/-- Selected-panel node-label edit (lines 452–457); `none` models the
empty input. -/
def editLabel (s : EState) (cname : String) (sl : Slot) (v : Option String) : EState :=
  { s with comps := updateComp s.comps cname (fun c => setLabel c sl v) }

/-- Selected-panel value edit (line 450). -/
def editValue (s : EState) (cname : String) (v : Option ℚ) : EState :=
  { s with comps := updateComp s.comps cname (fun c => { c with value := v }) }

/-- Source `btn-clear` (line 671): empties the collections (`idCounter` is not
reset). -/
def clearAll (s : EState) : EState :=
  { s with comps := [], wires := [], autoNodes := [], activePort := none }

/-- One editor interaction. -/
inductive Step : EState → EState → Prop
  | place (s : EState) (ty : CType) : Step s (placeComp s ty)
  | gnd (s : EState) (cname : String) (sl : Slot) : Step s (gndClick s cname sl)
  | portClickW (s : EState) (cname : String) (sl : Slot) :
      Step s (handleWirePortClick s cname sl)
  | canvasClickW (s : EState) (x y : Int) : Step s (clickCanvasW s x y)
  | escape (s : EState) : Step s (escapeKey s)
  | delWire (s : EState) (wid : String) : Step s (deleteWire s wid)
  | delComp (s : EState) (cname : String) : Step s (deleteComponent s cname)
  | editLbl (s : EState) (cname : String) (sl : Slot) (v : Option String) :
      Step s (editLabel s cname sl v)
  | editVal (s : EState) (cname : String) (v : Option ℚ) : Step s (editValue s cname v)
  | clear (s : EState) : Step s (clearAll s)

/-- Editor states reachable from the initial state. -/
def Reachable (s : EState) : Prop := Relation.ReflTransGen Step initState s

/-- The same interactions, except that a canvas click may not complete a
node–node wire (the junction-merge branch of `handleWireNodeClick`). -/
inductive StepNM : EState → EState → Prop
  | place (s : EState) (ty : CType) : StepNM s (placeComp s ty)
  | gnd (s : EState) (cname : String) (sl : Slot) : StepNM s (gndClick s cname sl)
  | portClickW (s : EState) (cname : String) (sl : Slot) :
      StepNM s (handleWirePortClick s cname sl)
  | canvasClickW (s : EState) (x y : Int) (h : ∀ nid, s.activePort ≠ some (.node nid)) :
      StepNM s (clickCanvasW s x y)
  | escape (s : EState) : StepNM s (escapeKey s)
  | delWire (s : EState) (wid : String) : StepNM s (deleteWire s wid)
  | delComp (s : EState) (cname : String) : StepNM s (deleteComponent s cname)
  | editLbl (s : EState) (cname : String) (sl : Slot) (v : Option String) :
      StepNM s (editLabel s cname sl v)
  | editVal (s : EState) (cname : String) (v : Option ℚ) : StepNM s (editValue s cname v)
  | clear (s : EState) : StepNM s (clearAll s)

/-- Editor states reachable without junction–junction merges. -/
def ReachableNM (s : EState) : Prop := Relation.ReflTransGen StepNM initState s

/-! ### Semantic view of the union-find dictionary -/

/-- Key `r` is reached from `k` by chasing parents, and is a root. -/
def Reach (uf : UFS) (k r : String) : Prop :=
  ∃ n, (pstep uf)^[n] k = r ∧ pstep uf r = r

/-- Every key's parent chain terminates at a root (true of every state
the resolution passes construct). -/
def WF (uf : UFS) : Prop := ∀ k, ∃ r, Reach uf k r

/-- Two dictionaries with the same reachability (path compression and
lazy registration preserve this). -/
def ReachEqv (uf uf' : UFS) : Prop := ∀ k r, Reach uf k r ↔ Reach uf' k r

/-- Keys `k` and `l` lie in the same partition. -/
def ufSame (uf : UFS) (k l : String) : Prop :=
  ∃ r, Reach uf k r ∧ Reach uf l r

/-- One wire edge between identity keys (in either orientation). -/
def Linked (ps : List (String × String)) (x y : String) : Prop :=
  (x, y) ∈ ps ∨ (y, x) ∈ ps

/-- Keys `a` and `b` are joined by a chain of wire edges (possibly empty). -/
def Conn (ps : List (String × String)) (a b : String) : Prop :=
  Relation.ReflTransGen (Linked ps) a b

def applyUnions (uf : UFS) (ps : List (String × String)) : UFS :=
  ps.foldl (fun uf p => union uf p.1 p.2) uf

/-- The identity-key pairs the wires contribute as union operations. -/
def wirePairs (d : Doc) : List (String × String) :=
  d.wires.map (fun w => (epKeySim d.comps w.p1, epKeySim d.comps w.p2))

/-- The union-find state `runSim`/`probePort` build from the document:
registration followed by the wire unions. -/
def simUF (d : Doc) : UFS := unionWiresSim d.comps (regPass d) d.wires

/-- The separator emitted between `<n2>` and the trailing token: the
`DC` keyword appears exactly for the two source kinds. -/
def dcSep : CType → String
  | .V => " DC "
  | .I => " DC "
  | _ => " "

/-- Junction ids are exactly `N1 … Nk` in creation order. -/
def AutoCanonical (s : EState) : Prop :=
  s.autoNodes.map (·.id) =
    (List.range s.autoNodes.length).map (fun i => "N" ++ decRepr (i + 1))

/-! ### Concrete documents and editor traces used by the claims -/

/-- C5's voltage-divider scenario: `V1` with `n1` explicitly grounded,
`R1`, `R2`, ring of three wires. -/
def c5doc : Doc :=
  ⟨[⟨.V, "V1", some "0", none, some 5⟩,
    ⟨.R, "R1", none, none, some 1000⟩,
    ⟨.R, "R2", none, none, some 1000⟩],
   [⟨"W1", .port "V1" .n2, .port "R1" .n1⟩,
    ⟨"W2", .port "R1" .n2, .port "R2" .n1⟩,
    ⟨"W3", .port "R2" .n2, .port "V1" .n1⟩], []⟩

/-- C1's failing trace: place two resistors, wire `R1.n1 → R2.n1`
(first click on `R1.n1`), then apply the ground tool to `R2.n1`. -/
def c1state : EState :=
  gndClick
    (handleWirePortClick
      (handleWirePortClick (placeComp (placeComp initState .R) .R) "R1" .n1)
      "R2" .n1)
    "R2" .n1

/-- The `R2` component as it exists in `c1state` (its `n1` label is the
ground marker `"0"`). -/
def c1R2 : Comp := ⟨.R, "R2", some "0", some "R2_n2", some 1000⟩

/-- C2's state before deletion: two placed resistors joined by the single
wire `W1` from `R1.n2` to `R2.n1` (which rewrote `R2.n1`'s label). -/
def c2pre : EState :=
  handleWirePortClick
    (handleWirePortClick (placeComp (placeComp initState .R) .R) "R1" .n2)
    "R2" .n1

/-- C2's state after deleting the only wire. -/
def c2post : EState := deleteWire c2pre "W1"

/-- The two components as they exist in `c2pre`/`c2post`. -/
def c2R1 : Comp := ⟨.R, "R1", some "R1_n1", some "R1_n2", some 1000⟩

def c2R2 : Comp := ⟨.R, "R2", some "R1_n2", some "R2_n2", some 1000⟩

/-- The two freshly placed resistors before any wire was drawn. -/
def c2base : EState := placeComp (placeComp initState .R) .R

/-- C4/C8 document: a single resistor with no wires; for C4 its value is
missing. -/
def c4doc : Doc := ⟨[⟨.R, "R1", none, none, none⟩], [], []⟩

def c8doc : Doc := ⟨[⟨.R, "R1", none, none, some 1000⟩], [], []⟩

def c8comp : Comp := ⟨.R, "R1", none, none, some 1000⟩

/-- C10 trace: create junctions N1, N2, N3 (cancelling the gesture in
between), merge N1 with N2 (dropping N2), then create a fresh junction —
which is assigned the already-used id `N3`. -/
def c10a : EState := escapeKey (clickCanvasW initState 0 0)

def c10b : EState := escapeKey (clickCanvasW c10a 20 0)

def c10c : EState := escapeKey (clickCanvasW c10b 40 0)

def c10d : EState := clickCanvasW (clickCanvasW c10c 0 0) 20 0

def c10e : EState := clickCanvasW c10d 60 0

/-- Witness state: a single junction created at the origin. -/
def c10w : EState := clickCanvasW initState 0 0

/-! ## Theorems -/

/-! ### Decimal rendering: injectivity -/

theorem decDigitsF_fuel_irrel :
    ∀ f₁ f₂ n, n < f₁ → n < f₂ → decDigitsF f₁ n = decDigitsF f₂ n := by
  intro f₁
  induction f₁ with
  | zero => intro f₂ n h; omega
  | succ g ih =>
    intro f₂ n h₁ h₂
    cases f₂ with
    | zero => omega
    | succ h =>
      simp only [decDigitsF]
      by_cases hn : n < 10
      · simp [hn]
      · simp only [hn, if_false]
        have hlt : n / 10 < n := Nat.div_lt_self (by omega) (by omega)
        rw [ih h (n / 10) (by omega) (by omega)]

/-- Unfolding equation for the digit list of `decRepr`. -/
theorem decDigits_eq (n : Nat) :
    decDigitsF (n + 1) n =
      if n < 10 then [Nat.digitChar n]
      else decDigitsF (n / 10 + 1) (n / 10) ++ [Nat.digitChar (n % 10)] := by
  conv_lhs => rw [decDigitsF]
  by_cases hn : n < 10
  · simp [hn]
  · have hlt : n / 10 < n := Nat.div_lt_self (by omega) (by omega)
    simp only [hn, if_false]
    rw [decDigitsF_fuel_irrel n (n / 10 + 1) (n / 10) (by omega) (by omega)]

theorem decDigits_ne_nil (n : Nat) : decDigitsF (n + 1) n ≠ [] := by
  rw [decDigits_eq]
  by_cases hn : n < 10 <;> simp [hn]

theorem digitChar_inj_lt (a b : Nat) (ha : a < 10) (hb : b < 10)
    (h : Nat.digitChar a = Nat.digitChar b) : a = b := by
  have key : ∀ x y : Fin 10, Nat.digitChar x.val = Nat.digitChar y.val → x = y := by decide
  exact congrArg Fin.val (key ⟨a, ha⟩ ⟨b, hb⟩ h)

theorem decDigits_inj : ∀ m n : Nat, decDigitsF (m + 1) m = decDigitsF (n + 1) n → m = n := by
  intro m
  induction m using Nat.strong_induction_on with
  | _ m ih =>
    intro n h
    rw [decDigits_eq m, decDigits_eq n] at h
    by_cases hm : m < 10 <;> by_cases hn : n < 10
    · simp only [hm, hn, if_true] at h
      injection h with h1 _
      exact digitChar_inj_lt m n hm hn h1
    · simp only [hm, hn, if_true, if_false] at h
      have hl := congrArg List.length h
      simp only [List.length_cons, List.length_nil, List.length_append] at hl
      have h0 : (decDigitsF (n / 10 + 1) (n / 10)).length = 0 := by omega
      exact absurd (List.length_eq_zero.mp h0) (decDigits_ne_nil (n / 10))
    · simp only [hm, hn, if_true, if_false] at h
      have hl := congrArg List.length h
      simp only [List.length_cons, List.length_nil, List.length_append] at hl
      have h0 : (decDigitsF (m / 10 + 1) (m / 10)).length = 0 := by omega
      exact absurd (List.length_eq_zero.mp h0) (decDigits_ne_nil (m / 10))
    · simp only [hm, hn, if_false] at h
      have h2 := List.append_inj' h rfl
      have hmod : m % 10 = n % 10 := by
        have := h2.2
        simp only [List.cons.injEq] at this
        exact digitChar_inj_lt _ _ (Nat.mod_lt _ (by omega)) (Nat.mod_lt _ (by omega)) this.1
      have hdiv : m / 10 = n / 10 :=
        ih (m / 10) (Nat.div_lt_self (by omega) (by omega)) (n / 10) h2.1
      omega

theorem decRepr_inj : ∀ m n : Nat, decRepr m = decRepr n → m = n := by
  intro m n h
  exact decDigits_inj m n (congrArg String.data h)

theorem nId_inj (m n : Nat) (h : "N" ++ decRepr m = "N" ++ decRepr n) : m = n := by
  apply decRepr_inj
  have hd := congrArg String.data h
  simp only [String.data_append, List.append_cancel_left_eq] at hd
  cases hrm : decRepr m with
  | mk dm =>
    cases hrn : decRepr n with
    | mk dn =>
      rw [hrm, hrn] at hd
      simp only at hd
      exact congrArg String.mk hd

/-! ### Reachability in the union-find dictionary -/

theorem reach_self (uf : UFS) (r : String) (h : pstep uf r = r) : Reach uf r r :=
  ⟨0, rfl, h⟩

theorem reach_cons (uf : UFS) (k r : String) (h : Reach uf (pstep uf k) r) : Reach uf k r := by
  obtain ⟨n, hn, hr⟩ := h
  exact ⟨n + 1, by rw [Function.iterate_succ_apply]; exact hn, hr⟩

theorem reach_of_root (uf : UFS) (k r : String) (hk : pstep uf k = k)
    (h : Reach uf k r) : r = k := by
  obtain ⟨n, hn, _⟩ := h
  rw [Function.iterate_fixed hk n] at hn
  exact hn.symm

theorem reach_unique (uf : UFS) (k r₁ r₂ : String)
    (h₁ : Reach uf k r₁) (h₂ : Reach uf k r₂) : r₁ = r₂ := by
  obtain ⟨n₁, hn₁, hr₁⟩ := h₁
  obtain ⟨n₂, hn₂, hr₂⟩ := h₂
  rcases Nat.le_total n₁ n₂ with h | h
  · have : (pstep uf)^[n₂] k = r₁ := by
      have : n₂ = (n₂ - n₁) + n₁ := by omega
      rw [this, Function.iterate_add_apply, hn₁, Function.iterate_fixed hr₁]
    rw [hn₂] at this
    exact this.symm
  · have : (pstep uf)^[n₁] k = r₂ := by
      have : n₁ = (n₁ - n₂) + n₂ := by omega
      rw [this, Function.iterate_add_apply, hn₂, Function.iterate_fixed hr₂]
    rw [hn₁] at this
    exact this

theorem reach_destruct (uf : UFS) (k r : String) (hk : pstep uf k ≠ k)
    (h : Reach uf k r) : Reach uf (pstep uf k) r := by
  obtain ⟨n, hn, hr⟩ := h
  cases n with
  | zero =>
    simp only [Function.iterate_zero, id] at hn
    subst hn
    exact absurd hr hk
  | succ m =>
    rw [Function.iterate_succ_apply] at hn
    exact ⟨m, hn, hr⟩

theorem reach_congr (uf uf' : UFS) (h : ∀ k, pstep uf k = pstep uf' k) :
    ∀ k r, Reach uf k r ↔ Reach uf' k r := by
  have hfun : pstep uf = pstep uf' := funext h
  intro k r
  unfold Reach
  rw [hfun]

theorem pstep_insertKey (uf : UFS) (a : String) (ha : a ∉ uf.dom) (k : String) :
    pstep (insertKey uf a) k = pstep uf k := by
  unfold pstep insertKey
  by_cases hk : k = a
  · subst hk
    simp [ha]
  · simp [hk, List.mem_append]

theorem pstep_setPar_self (uf : UFS) (a r : String) (ha : a ∈ uf.dom) :
    pstep (setPar uf a r) a = r := by
  unfold pstep setPar
  simp [ha]

theorem pstep_setPar_other (uf : UFS) (a r k : String) (hk : k ≠ a) :
    pstep (setPar uf a r) k = pstep uf k := by
  unfold pstep setPar
  simp [hk]

/-- Path compression: pointing `a` directly at its root `r` preserves all
reachability. -/
theorem reach_setPar_compress (uf : UFS) (a r : String) (ha : a ∈ uf.dom)
    (har : Reach uf a r) (hne : a ≠ r) :
    ∀ k x, Reach (setPar uf a r) k x ↔ Reach uf k x := by
  obtain ⟨n₀, hn₀, hroot⟩ := har
  have hna : pstep uf a ≠ a := by
    intro hfix
    exact hne (reach_of_root uf a r hfix ⟨n₀, hn₀, hroot⟩).symm
  have hroot2 : pstep (setPar uf a r) r = r := by
    rw [pstep_setPar_other uf a r r (Ne.symm hne)]
    exact hroot
  have hstepa : pstep (setPar uf a r) a = r := pstep_setPar_self uf a r ha
  have fwd : ∀ n k x, (pstep (setPar uf a r))^[n] k = x →
      pstep (setPar uf a r) x = x → Reach uf k x := by
    intro n
    induction n with
    | zero =>
      intro k x h hx
      rw [Function.iterate_zero_apply] at h
      subst x
      by_cases hka : k = a
      · subst k
        rw [hstepa] at hx
        exact absurd hx.symm hne
      · rw [pstep_setPar_other uf a r k hka] at hx
        exact reach_self uf k hx
    | succ m ih =>
      intro k x h hx
      rw [Function.iterate_succ_apply] at h
      by_cases hka : k = a
      · subst k
        rw [hstepa, Function.iterate_fixed hroot2 m] at h
        subst x
        exact ⟨n₀, hn₀, hroot⟩
      · rw [pstep_setPar_other uf a r k hka] at h
        exact reach_cons uf k x (ih (pstep uf k) x h hx)
  have bwd : ∀ n k x, (pstep uf)^[n] k = x → pstep uf x = x →
      Reach (setPar uf a r) k x := by
    intro n
    induction n with
    | zero =>
      intro k x h hx
      rw [Function.iterate_zero_apply] at h
      subst x
      by_cases hka : k = a
      · subst k
        exact absurd hx hna
      · refine reach_self _ k ?_
        rw [pstep_setPar_other uf a r k hka]
        exact hx
    | succ m ih =>
      intro k x h hx
      rw [Function.iterate_succ_apply] at h
      by_cases hka : k = a
      · subst k
        have hxr : x = r := by
          refine reach_unique uf a x r ⟨m + 1, ?_, hx⟩ ⟨n₀, hn₀, hroot⟩
          rw [Function.iterate_succ_apply]
          exact h
        rw [hxr]
        refine reach_cons _ a r ?_
        rw [hstepa]
        exact reach_self _ r hroot2
      · refine reach_cons _ k x ?_
        rw [pstep_setPar_other uf a r k hka]
        exact ih (pstep uf k) x h hx
  exact fun k x => ⟨fun ⟨n, hn, hx⟩ => fwd n k x hn hx, fun ⟨n, hn, hx⟩ => bwd n k x hn hx⟩

/-- Union: pointing root `rb` at the distinct root `ra` re-routes exactly
the keys that reached `rb`. -/
theorem reach_setPar_merge (uf : UFS) (ra rb : String) (hra : pstep uf ra = ra)
    (hrb : pstep uf rb = rb) (hne : ra ≠ rb) (hdom : rb ∈ uf.dom) :
    ∀ k x, Reach (setPar uf rb ra) k x ↔
      ((Reach uf k x ∧ x ≠ rb) ∨ (Reach uf k rb ∧ x = ra)) := by
  have hstep : pstep (setPar uf rb ra) rb = ra := pstep_setPar_self uf rb ra hdom
  have hra2 : pstep (setPar uf rb ra) ra = ra := by
    rw [pstep_setPar_other uf rb ra ra hne]
    exact hra
  have fwd : ∀ n k x, (pstep (setPar uf rb ra))^[n] k = x →
      pstep (setPar uf rb ra) x = x →
      ((Reach uf k x ∧ x ≠ rb) ∨ (Reach uf k rb ∧ x = ra)) := by
    intro n
    induction n with
    | zero =>
      intro k x h hx
      rw [Function.iterate_zero_apply] at h
      subst x
      by_cases hkb : k = rb
      · subst k
        rw [hstep] at hx
        exact absurd hx hne
      · rw [pstep_setPar_other uf rb ra k hkb] at hx
        exact Or.inl ⟨reach_self uf k hx, hkb⟩
    | succ m ih =>
      intro k x h hx
      rw [Function.iterate_succ_apply] at h
      by_cases hkb : k = rb
      · subst k
        rw [hstep, Function.iterate_fixed hra2 m] at h
        subst x
        exact Or.inr ⟨reach_self uf rb hrb, rfl⟩
      · rw [pstep_setPar_other uf rb ra k hkb] at h
        rcases ih (pstep uf k) x h hx with ⟨h1, h2⟩ | ⟨h1, h2⟩
        · exact Or.inl ⟨reach_cons uf k x h1, h2⟩
        · exact Or.inr ⟨reach_cons uf k rb h1, h2⟩
  have bwdl : ∀ n k x, (pstep uf)^[n] k = x → pstep uf x = x → x ≠ rb →
      Reach (setPar uf rb ra) k x := by
    intro n
    induction n with
    | zero =>
      intro k x h hx hxb
      rw [Function.iterate_zero_apply] at h
      subst x
      refine reach_self _ k ?_
      rw [pstep_setPar_other uf rb ra k hxb]
      exact hx
    | succ m ih =>
      intro k x h hx hxb
      rw [Function.iterate_succ_apply] at h
      by_cases hkb : k = rb
      · subst k
        have : x = rb := by
          refine (reach_of_root uf rb x hrb ⟨m + 1, ?_, hx⟩)
          rw [Function.iterate_succ_apply]
          exact h
        exact absurd this hxb
      · refine reach_cons _ k x ?_
        rw [pstep_setPar_other uf rb ra k hkb]
        exact ih (pstep uf k) x h hx hxb
  have bwdr : ∀ n k, (pstep uf)^[n] k = rb → Reach (setPar uf rb ra) k ra := by
    intro n
    induction n with
    | zero =>
      intro k h
      rw [Function.iterate_zero_apply] at h
      subst k
      refine reach_cons _ rb ra ?_
      rw [hstep]
      exact reach_self _ ra hra2
    | succ m ih =>
      intro k h
      rw [Function.iterate_succ_apply] at h
      by_cases hkb : k = rb
      · subst k
        refine reach_cons _ rb ra ?_
        rw [hstep]
        exact reach_self _ ra hra2
      · refine reach_cons _ k ra ?_
        rw [pstep_setPar_other uf rb ra k hkb]
        exact ih (pstep uf k) h
  intro k x
  constructor
  · rintro ⟨n, hn, hx⟩
    exact fwd n k x hn hx
  · rintro (⟨⟨n, hn, hx⟩, hxb⟩ | ⟨⟨n, hn, _⟩, hxa⟩)
    · exact bwdl n k x hn hx hxb
    · subst hxa
      exact bwdr n k hn

/-- Full specification of `findAux` given enough fuel: it returns the
root, preserves reachability, only grows the key set, and registers the
root. -/
theorem findAux_spec :
    ∀ (fuel : Nat) (uf : UFS) (a : String) (n : Nat) (r : String),
      (pstep uf)^[n] a = r → pstep uf r = r → n < fuel →
      (findAux fuel uf a).1 = r ∧
      (∀ k x, Reach (findAux fuel uf a).2 k x ↔ Reach uf k x) ∧
      uf.dom ⊆ (findAux fuel uf a).2.dom ∧
      r ∈ (findAux fuel uf a).2.dom := by
  intro fuel
  induction fuel with
  | zero =>
    intro uf a n r _ _ h
    omega
  | succ f ih =>
    intro uf a n r hn hr hlt
    by_cases hdom : a ∈ uf.dom
    · by_cases hfix : uf.par a = a
      · have hpa : pstep uf a = a := by
          unfold pstep
          simp [hdom, hfix]
        have hra : r = a := reach_of_root uf a r hpa ⟨n, hn, hr⟩
        have hres : findAux (f + 1) uf a = (a, uf) := by
          simp [findAux, hdom, hfix]
        rw [hres, hra]
        exact ⟨rfl, fun k x => Iff.rfl, fun z hz => hz, hdom⟩
      · have hpa : pstep uf a = uf.par a := by
          unfold pstep
          simp [hdom]
        have hna : pstep uf a ≠ a := by
          rw [hpa]
          exact hfix
        cases n with
        | zero =>
          rw [Function.iterate_zero_apply] at hn
          subst r
          exact absurd hr hna
        | succ m =>
          rw [Function.iterate_succ_apply, hpa] at hn
          obtain ⟨h1, h2, h3, h4⟩ := ih uf (uf.par a) m r hn hr (by omega)
          have hres : findAux (f + 1) uf a =
              ((findAux f uf (uf.par a)).1,
                setPar (findAux f uf (uf.par a)).2 a (findAux f uf (uf.par a)).1) := by
            simp [findAux, hdom, hfix]
          have hreach : Reach uf a r :=
            ⟨m + 1, by rw [Function.iterate_succ_apply, hpa]; exact hn, hr⟩
          have hanr : a ≠ r := by
            intro hear
            subst hear
            exact hna hr
          have hcomp := reach_setPar_compress (findAux f uf (uf.par a)).2 a r
            (h3 hdom) ((h2 a r).mpr hreach) hanr
          rw [hres]
          refine ⟨h1, ?_, ?_, ?_⟩
          · intro k x
            rw [h1]
            exact (hcomp k x).trans (h2 k x)
          · intro z hz
            exact h3 hz
          · exact h4
    · have hpa : pstep uf a = a := by
        unfold pstep
        simp [hdom]
      have hra : r = a := reach_of_root uf a r hpa ⟨n, hn, hr⟩
      have hres : findAux (f + 1) uf a = (a, insertKey uf a) := by
        simp [findAux, hdom]
      rw [hres, hra]
      refine ⟨rfl, ?_, ?_, ?_⟩
      · exact reach_congr (insertKey uf a) uf (pstep_insertKey uf a hdom)
      · intro z hz
        exact List.mem_append_left _ hz
      · simp [insertKey]

theorem pstep_of_not_mem (uf : UFS) (k : String) (h : k ∉ uf.dom) : pstep uf k = k := by
  unfold pstep
  simp [h]

/-- A parent chain that ends in a root does so within `dom.length` steps
(its non-root elements are distinct members of `dom`). -/
theorem reach_bound (uf : UFS) (k r : String) (h : Reach uf k r) :
    ∃ n ≤ uf.dom.length, (pstep uf)^[n] k = r := by
  obtain ⟨n₁, hn₁, hr⟩ := h
  have hex : ∃ n, (pstep uf)^[n] k = r := ⟨n₁, hn₁⟩
  have hspec : (pstep uf)^[Nat.find hex] k = r := Nat.find_spec hex
  set n₀ := Nat.find hex with hn₀def
  by_cases hle : n₀ ≤ uf.dom.length
  · exact ⟨n₀, hle, hspec⟩
  · exfalso
    push_neg at hle
    have key : ∀ i j, i < j → j < n₀ → (pstep uf)^[i] k ≠ (pstep uf)^[j] k := by
      intro i j hij hjn heq
      have hcalc : (pstep uf)^[n₀ - j + i] k = r := by
        calc (pstep uf)^[n₀ - j + i] k
            = (pstep uf)^[n₀ - j] ((pstep uf)^[i] k) := Function.iterate_add_apply _ _ _ _
          _ = (pstep uf)^[n₀ - j] ((pstep uf)^[j] k) := by rw [heq]
          _ = (pstep uf)^[n₀ - j + j] k := (Function.iterate_add_apply _ _ _ _).symm
          _ = (pstep uf)^[n₀] k := by congr 1; omega
          _ = r := hspec
      exact Nat.find_min hex (by omega) hcalc
    have hmem : ∀ i, i < n₀ → (pstep uf)^[i] k ∈ uf.dom := by
      intro i hi
      by_contra hnot
      have hroot : pstep uf ((pstep uf)^[i] k) = (pstep uf)^[i] k :=
        pstep_of_not_mem uf _ hnot
      have hstab : (pstep uf)^[n₀] k = (pstep uf)^[i] k := by
        have h1 : n₀ = (n₀ - i) + i := by omega
        rw [h1, Function.iterate_add_apply, Function.iterate_fixed hroot]
      exact Nat.find_min hex hi (by rw [← hstab]; exact hspec)
    have hinj : Set.InjOn (fun i : Fin n₀ => (pstep uf)^[i.val] k)
        ↑(Finset.univ : Finset (Fin n₀)) := by
      intro i _ j _ heq
      rcases lt_trichotomy i.val j.val with hlt | heqv | hgt
      · exact absurd heq (key i.val j.val hlt j.isLt)
      · exact Fin.ext heqv
      · exact absurd heq.symm (key j.val i.val hgt i.isLt)
    have hcard := Finset.card_le_card_of_injOn (fun i : Fin n₀ => (pstep uf)^[i.val] k)
      (fun i _ => List.mem_toFinset.mpr (hmem i.val i.isLt)) hinj
    rw [Finset.card_fin] at hcard
    have := List.toFinset_card_le uf.dom
    omega

/-- Running `find` on a well-formed chain: returns the root, preserves
reachability, grows the key set, registers the root. -/
theorem find_spec (uf : UFS) (a r : String) (h : Reach uf a r) :
    (find uf a).1 = r ∧ (∀ k x, Reach (find uf a).2 k x ↔ Reach uf k x) ∧
    uf.dom ⊆ (find uf a).2.dom ∧ r ∈ (find uf a).2.dom := by
  obtain ⟨n, hle, hn⟩ := reach_bound uf a r h
  obtain ⟨_, _, hr⟩ := h
  exact findAux_spec (uf.dom.length + 1) uf a n r hn hr (by omega)

theorem wf_empty : WF UFS.empty := by
  intro k
  refine ⟨k, reach_self _ k (pstep_of_not_mem _ k ?_)⟩
  unfold UFS.empty
  simp

theorem ufSame_symm (uf : UFS) (k l : String) (h : ufSame uf k l) : ufSame uf l k := by
  obtain ⟨r, h1, h2⟩ := h
  exact ⟨r, h2, h1⟩

theorem wf_transfer (uf uf' : UFS) (h : ∀ k x, Reach uf k x ↔ Reach uf' k x)
    (hwf : WF uf) : WF uf' :=
  fun k => (hwf k).imp (fun r hr => (h k r).mp hr)

theorem ufSame_congr (uf uf' : UFS) (h : ∀ k x, Reach uf k x ↔ Reach uf' k x) (k l : String) :
    ufSame uf k l ↔ ufSame uf' k l := by
  unfold ufSame
  exact exists_congr fun r => and_congr (h k r) (h l r)

theorem find_keeps (uf : UFS) (a : String) (hwf : WF uf) :
    WF (find uf a).2 ∧ (∀ k x, Reach (find uf a).2 k x ↔ Reach uf k x) := by
  obtain ⟨r, hr⟩ := hwf a
  obtain ⟨-, h2, -, -⟩ := find_spec uf a r hr
  exact ⟨wf_transfer uf _ (fun k x => (h2 k x).symm) hwf, h2⟩

theorem reach_to_root (uf : UFS) (k a ra : String) (h : ufSame uf k a)
    (hra : Reach uf a ra) : Reach uf k ra := by
  obtain ⟨r, hk, ha⟩ := h
  rw [reach_unique uf a r ra ha hra] at hk
  exact hk

/-- Running `union` preserves well-formedness and joins exactly the two argument
classes. -/
theorem union_keeps (uf : UFS) (a b : String) (hwf : WF uf) :
    WF (union uf a b) ∧
    (∀ k l, ufSame (union uf a b) k l ↔
      (ufSame uf k l ∨ (ufSame uf k a ∧ ufSame uf b l) ∨ (ufSame uf k b ∧ ufSame uf a l))) := by
  obtain ⟨ra, hra⟩ := hwf a
  obtain ⟨rb, hrb⟩ := hwf b
  obtain ⟨f1, f2, f3, f4⟩ := find_spec uf a ra hra
  have hrb2 : Reach (find uf a).2 b rb := (f2 b rb).mpr hrb
  obtain ⟨g1, g2, g3, g4⟩ := find_spec (find uf a).2 b rb hrb2
  have hEqv : ∀ k x, Reach (find (find uf a).2 b).2 k x ↔ Reach uf k x :=
    fun k x => (g2 k x).trans (f2 k x)
  have hwf2 : WF (find (find uf a).2 b).2 :=
    wf_transfer uf _ (fun k x => (hEqv k x).symm) hwf
  have hu : union uf a b =
      if (find uf a).1 = (find (find uf a).2 b).1
      then (find (find uf a).2 b).2
      else setPar (find (find uf a).2 b).2 (find (find uf a).2 b).1 (find uf a).1 := rfl
  rw [f1, g1] at hu
  by_cases hcase : ra = rb
  · rw [hu, if_pos hcase]
    refine ⟨hwf2, fun k l => ?_⟩
    rw [ufSame_congr _ uf hEqv k l]
    constructor
    · exact Or.inl
    · rintro (h | ⟨h1, h2⟩ | ⟨h1, h2⟩)
      · exact h
      · exact ⟨ra, reach_to_root uf k a ra h1 hra,
          reach_to_root uf l b ra (ufSame_symm uf b l h2) (by rw [hcase]; exact hrb)⟩
      · exact ⟨ra, reach_to_root uf k b ra h1 (by rw [hcase]; exact hrb),
          reach_to_root uf l a ra (ufSame_symm uf a l h2) hra⟩
  · rw [hu, if_neg hcase]
    have hrootra : pstep uf ra = ra := by
      obtain ⟨_, _, hx⟩ := hra
      exact hx
    have hrootrb : pstep uf rb = rb := by
      obtain ⟨_, _, hx⟩ := hrb
      exact hx
    have hps_ra : pstep (find (find uf a).2 b).2 ra = ra := by
      obtain ⟨_, _, hx⟩ := (hEqv ra ra).mpr (reach_self uf ra hrootra)
      exact hx
    have hps_rb : pstep (find (find uf a).2 b).2 rb = rb := by
      obtain ⟨_, _, hx⟩ := (hEqv rb rb).mpr (reach_self uf rb hrootrb)
      exact hx
    have hchar := reach_setPar_merge (find (find uf a).2 b).2 ra rb hps_ra hps_rb hcase g4
    have hchar2 : ∀ k x, Reach (setPar (find (find uf a).2 b).2 rb ra) k x ↔
        ((Reach uf k x ∧ x ≠ rb) ∨ (Reach uf k rb ∧ x = ra)) := by
      intro k x
      rw [hchar k x, hEqv k x, hEqv k rb]
    constructor
    · intro k
      obtain ⟨x, hx⟩ := hwf k
      by_cases hxb : x = rb
      · subst x
        exact ⟨ra, (hchar2 k ra).mpr (Or.inr ⟨hx, rfl⟩)⟩
      · exact ⟨x, (hchar2 k x).mpr (Or.inl ⟨hx, hxb⟩)⟩
    · intro k l
      constructor
      · rintro ⟨r, hk, hl⟩
        rcases (hchar2 k r).mp hk with ⟨hk1, hk2⟩ | ⟨hk1, hk2⟩ <;>
          rcases (hchar2 l r).mp hl with ⟨hl1, hl2⟩ | ⟨hl1, hl2⟩
        · exact Or.inl ⟨r, hk1, hl1⟩
        · exact Or.inr (Or.inl ⟨⟨ra, hl2 ▸ hk1, hra⟩, ⟨rb, hrb, hl1⟩⟩)
        · exact Or.inr (Or.inr ⟨⟨rb, hk1, hrb⟩, ⟨ra, hra, hk2 ▸ hl1⟩⟩)
        · exact Or.inl ⟨rb, hk1, hl1⟩
      · rintro (⟨r, hk, hl⟩ | ⟨h1, h2⟩ | ⟨h1, h2⟩)
        · by_cases hr : r = rb
          · subst r
            exact ⟨ra, (hchar2 k ra).mpr (Or.inr ⟨hk, rfl⟩),
              (hchar2 l ra).mpr (Or.inr ⟨hl, rfl⟩)⟩
          · exact ⟨r, (hchar2 k r).mpr (Or.inl ⟨hk, hr⟩),
              (hchar2 l r).mpr (Or.inl ⟨hl, hr⟩)⟩
        · have hka : Reach uf k ra := reach_to_root uf k a ra h1 hra
          have hlb : Reach uf l rb := reach_to_root uf l b rb (ufSame_symm uf b l h2) hrb
          exact ⟨ra, (hchar2 k ra).mpr (Or.inl ⟨hka, hcase⟩),
            (hchar2 l ra).mpr (Or.inr ⟨hlb, rfl⟩)⟩
        · have hkb : Reach uf k rb := reach_to_root uf k b rb h1 hrb
          have hla : Reach uf l ra := reach_to_root uf l a ra (ufSame_symm uf a l h2) hra
          exact ⟨ra, (hchar2 k ra).mpr (Or.inr ⟨hkb, rfl⟩),
            (hchar2 l ra).mpr (Or.inl ⟨hla, hcase⟩)⟩

/-! ### Wire-chain connectivity -/

theorem conn_nil (a b : String) : Conn [] a b ↔ a = b := by
  constructor
  · intro h
    induction h with
    | refl => rfl
    | tail _ hbc _ =>
      rcases hbc with h | h <;> simp at h
  · rintro rfl
    exact .refl

theorem conn_symm (ps : List (String × String)) (a b : String) (h : Conn ps a b) :
    Conn ps b a := by
  induction h with
  | refl => exact .refl
  | tail _ hbc ih => exact Relation.ReflTransGen.head (Or.symm hbc) ih

theorem conn_mono (ps : List (String × String)) (q : String × String) (a b : String)
    (h : Conn ps a b) : Conn (ps ++ [q]) a b :=
  Relation.ReflTransGen.mono
    (fun _ _ hxy => hxy.imp (List.mem_append_left _) (List.mem_append_left _)) h

/-- Adding one edge `q` to the chain relation joins exactly the two
endpoint classes. -/
theorem conn_concat (ps : List (String × String)) (q1 q2 a b : String) :
    Conn (ps ++ [(q1, q2)]) a b ↔
      Conn ps a b ∨ (Conn ps a q1 ∧ Conn ps q2 b) ∨ (Conn ps a q2 ∧ Conn ps q1 b) := by
  constructor
  · intro h
    induction h with
    | refl => exact Or.inl .refl
    | tail _ hbc ih =>
      rcases hbc with hm | hm
      · rcases List.mem_append.mp hm with hin | hq
        · rcases ih with d1 | ⟨h1, h2⟩ | ⟨h1, h2⟩
          · exact Or.inl (d1.tail (Or.inl hin))
          · exact Or.inr (Or.inl ⟨h1, h2.tail (Or.inl hin)⟩)
          · exact Or.inr (Or.inr ⟨h1, h2.tail (Or.inl hin)⟩)
        · rw [List.mem_singleton, Prod.mk.injEq] at hq
          obtain ⟨rfl, rfl⟩ := hq
          rcases ih with d1 | ⟨h1, h2⟩ | ⟨h1, h2⟩
          · exact Or.inr (Or.inl ⟨d1, .refl⟩)
          · exact Or.inr (Or.inl ⟨h1, .refl⟩)
          · exact Or.inl h1
      · rcases List.mem_append.mp hm with hin | hq
        · rcases ih with d1 | ⟨h1, h2⟩ | ⟨h1, h2⟩
          · exact Or.inl (d1.tail (Or.inr hin))
          · exact Or.inr (Or.inl ⟨h1, h2.tail (Or.inr hin)⟩)
          · exact Or.inr (Or.inr ⟨h1, h2.tail (Or.inr hin)⟩)
        · rw [List.mem_singleton, Prod.mk.injEq] at hq
          obtain ⟨rfl, rfl⟩ := hq
          rcases ih with d1 | ⟨h1, h2⟩ | ⟨h1, h2⟩
          · exact Or.inr (Or.inr ⟨d1, .refl⟩)
          · exact Or.inl h1
          · exact Or.inr (Or.inr ⟨h1, .refl⟩)
  · have hedge : Linked (ps ++ [(q1, q2)]) q1 q2 :=
      Or.inl (List.mem_append_right _ (List.mem_singleton_self _))
    rintro (h | ⟨h1, h2⟩ | ⟨h1, h2⟩)
    · exact conn_mono ps (q1, q2) a b h
    · exact ((conn_mono ps (q1, q2) a q1 h1).tail hedge).trans
        (conn_mono ps (q1, q2) q2 b h2)
    · exact ((conn_mono ps (q1, q2) a q2 h1).tail (Or.symm hedge)).trans
        (conn_mono ps (q1, q2) q1 b h2)

theorem wf_applyUnions (ps : List (String × String)) :
    ∀ uf : UFS, WF uf → WF (applyUnions uf ps) := by
  induction ps with
  | nil => exact fun uf h => h
  | cons p ps ih =>
    intro uf h
    exact ih (union uf p.1 p.2) (union_keeps uf p.1 p.2 h).1

/-- Folding the unions over a pair list realises exactly the chain
connectivity of those pairs (starting from a state whose partition is
discrete). -/
theorem applyUnions_conn (ps : List (String × String)) (uf : UFS) (hwf : WF uf)
    (hbase : ∀ k l, ufSame uf k l ↔ k = l) :
    ∀ k l, ufSame (applyUnions uf ps) k l ↔ Conn ps k l := by
  induction ps using List.reverseRecOn with
  | nil =>
    intro k l
    rw [show applyUnions uf [] = uf from rfl, hbase, conn_nil]
  | append_singleton qs q ih =>
    intro k l
    obtain ⟨q1, q2⟩ := q
    have happ : applyUnions uf (qs ++ [(q1, q2)]) = union (applyUnions uf qs) q1 q2 := by
      unfold applyUnions
      rw [List.foldl_append]
      rfl
    rw [happ]
    have hwfq : WF (applyUnions uf qs) := wf_applyUnions qs uf hwf
    rw [(union_keeps _ q1 q2 hwfq).2 k l, ih k l, ih k q1, ih q2 l, ih k q2, ih q1 l,
      conn_concat qs q1 q2 k l]

/-! ### The pipeline states are well-formed and registration-neutral -/

theorem foldl_find_keeps {β : Type} (g : UFS → β → UFS)
    (hg : ∀ uf b, WF uf → WF (g uf b) ∧ (∀ k x, Reach (g uf b) k x ↔ Reach uf k x)) :
    ∀ (l : List β) (uf : UFS), WF uf →
      WF (l.foldl g uf) ∧ (∀ k x, Reach (l.foldl g uf) k x ↔ Reach uf k x) := by
  intro l
  induction l with
  | nil => exact fun uf h => ⟨h, fun k x => Iff.rfl⟩
  | cons b bs ih =>
    intro uf h
    obtain ⟨h1, h2⟩ := hg uf b h
    obtain ⟨h3, h4⟩ := ih (g uf b) h1
    exact ⟨h3, fun k x => (h4 k x).trans (h2 k x)⟩

theorem regComp_keeps (uf : UFS) (c : Comp) (h : WF uf) :
    WF (regComp uf c) ∧ (∀ k x, Reach (regComp uf c) k x ↔ Reach uf k x) := by
  obtain ⟨h1, h2⟩ := find_keeps uf (keyOf c .n1) h
  obtain ⟨h3, h4⟩ := find_keeps (find uf (keyOf c .n1)).2 (keyOf c .n2) h1
  exact ⟨h3, fun k x => (h4 k x).trans (h2 k x)⟩

theorem regPass_keeps (d : Doc) :
    WF (regPass d) ∧ (∀ k x, Reach (regPass d) k x ↔ Reach UFS.empty k x) := by
  obtain ⟨h1, h2⟩ := foldl_find_keeps regComp regComp_keeps d.comps UFS.empty wf_empty
  obtain ⟨h3, h4⟩ := foldl_find_keeps (fun uf n => (find uf n.id).2)
    (fun uf n hw => find_keeps uf n.id hw) d.autoNodes (d.comps.foldl regComp UFS.empty) h1
  exact ⟨h3, fun k x => (h4 k x).trans (h2 k x)⟩

theorem reach_empty (k r : String) : Reach UFS.empty k r ↔ k = r := by
  have hfix : ∀ z, pstep UFS.empty z = z := by
    intro z
    refine pstep_of_not_mem _ z ?_
    unfold UFS.empty
    simp
  constructor
  · rintro ⟨n, hn, _⟩
    rw [Function.iterate_fixed (hfix k) n] at hn
    exact hn
  · rintro rfl
    exact reach_self _ k (hfix k)

theorem ufSame_empty (k l : String) : ufSame UFS.empty k l ↔ k = l := by
  constructor
  · rintro ⟨r, h1, h2⟩
    rw [reach_empty] at h1 h2
    rw [h1, h2]
  · rintro rfl
    exact ⟨k, (reach_empty k k).mpr rfl, (reach_empty k k).mpr rfl⟩

theorem ufSame_regPass (d : Doc) (k l : String) : ufSame (regPass d) k l ↔ k = l := by
  rw [ufSame_congr (regPass d) UFS.empty (regPass_keeps d).2 k l, ufSame_empty]

theorem unionWiresSim_eq_applyUnions (cs : List Comp) (uf : UFS) (ws : List Wire) :
    unionWiresSim cs uf ws =
      applyUnions uf (ws.map (fun w => (epKeySim cs w.p1, epKeySim cs w.p2))) := by
  unfold unionWiresSim applyUnions
  rw [List.foldl_map]

theorem wf_simUF (d : Doc) : WF (simUF d) := by
  unfold simUF
  rw [unionWiresSim_eq_applyUnions]
  exact wf_applyUnions _ _ (regPass_keeps d).1

/-- The partition of the union-find state built by the resolution passes
is exactly wire-chain connectivity. -/
theorem simUF_conn (d : Doc) (a b : String) :
    ufSame (simUF d) a b ↔ Conn (wirePairs d) a b := by
  unfold simUF
  rw [unionWiresSim_eq_applyUnions]
  exact applyUnions_conn _ (regPass d) (regPass_keeps d).1 (ufSame_regPass d) a b

/-- Two successive `find` queries agree exactly on keys of the same
partition. -/
theorem find_query (uf : UFS) (hwf : WF uf) (a b : String) :
    (find uf a).1 = (find (find uf a).2 b).1 ↔ ufSame uf a b := by
  obtain ⟨ra, hra⟩ := hwf a
  obtain ⟨f1, f2, _, _⟩ := find_spec uf a ra hra
  obtain ⟨rb, hrb⟩ := hwf b
  have hrb2 : Reach (find uf a).2 b rb := (f2 b rb).mpr hrb
  have g1 : (find (find uf a).2 b).1 = rb := (find_spec _ b rb hrb2).1
  rw [f1, g1]
  constructor
  · intro h
    exact ⟨ra, hra, by rw [h]; exact hrb⟩
  · rintro ⟨r, h1, h2⟩
    rw [reach_unique uf a ra r hra h1, reach_unique uf b rb r hrb h2]

/-! ### The reps phase preserves the dictionary's semantics -/

theorem repsStep_fst (acc : UFS × List (String × Option String)) (lbl : String) (g : Bool) :
    (repsStep acc lbl g).1 = (find acc.1 lbl).2 := by
  unfold repsStep
  dsimp only
  split <;> rfl

theorem repsStep_keeps (acc : UFS × List (String × Option String)) (lbl : String) (g : Bool)
    (h : WF acc.1) :
    WF (repsStep acc lbl g).1 ∧ (∀ k x, Reach (repsStep acc lbl g).1 k x ↔ Reach acc.1 k x) := by
  rw [repsStep_fst]
  exact find_keeps acc.1 lbl h

theorem repsComps_keeps (cs : List Comp) :
    ∀ acc, WF acc.1 →
      WF (repsComps acc cs).1 ∧ (∀ k x, Reach (repsComps acc cs).1 k x ↔ Reach acc.1 k x) := by
  induction cs with
  | nil => exact fun acc h => ⟨h, fun k x => Iff.rfl⟩
  | cons c cs ih =>
    intro acc h
    have hstep : repsComps acc (c :: cs) =
        repsComps (repsStep (repsStep acc (keyOf c .n1) (isGroundLbl c .n1))
          (keyOf c .n2) (isGroundLbl c .n2)) cs := by
      unfold repsComps
      rw [List.foldl_cons]
    rw [hstep]
    obtain ⟨h1, h2⟩ := repsStep_keeps acc (keyOf c .n1) (isGroundLbl c .n1) h
    obtain ⟨h3, h4⟩ := repsStep_keeps _ (keyOf c .n2) (isGroundLbl c .n2) h1
    obtain ⟨h5, h6⟩ := ih _ h3
    exact ⟨h5, fun k x => ((h6 k x).trans (h4 k x)).trans (h2 k x)⟩

theorem repsNodes_keeps (ns : List NodeJ) :
    ∀ acc, WF acc.1 →
      WF (repsNodes acc ns).1 ∧ (∀ k x, Reach (repsNodes acc ns).1 k x ↔ Reach acc.1 k x) := by
  induction ns with
  | nil => exact fun acc h => ⟨h, fun k x => Iff.rfl⟩
  | cons n ns ih =>
    intro acc h
    have hstep : repsNodes acc (n :: ns) = repsNodes (repsStep acc n.id false) ns := by
      unfold repsNodes
      rw [List.foldl_cons]
    rw [hstep]
    obtain ⟨h1, h2⟩ := repsStep_keeps acc n.id false h
    obtain ⟨h3, h4⟩ := ih _ h1
    exact ⟨h3, fun k x => (h4 k x).trans (h2 k x)⟩

theorem wf_resolveSim (d : Doc) : WF (resolveSim d).1 := by
  obtain ⟨h2, _⟩ := repsComps_keeps d.comps (simUF d, []) (wf_simUF d)
  obtain ⟨h3, _⟩ := repsNodes_keeps d.autoNodes _ h2
  exact h3

/-! ### The two copies of the wire-key computation agree -/

theorem epKey_eq (cs : List Comp) (p : EP) : epKeyGN cs p = epKeySim cs p := by
  cases p with
  | node nid => rfl
  | port cn sl =>
    simp only [epKeyGN, epKeySim]
    cases hfind : cs.find? (fun c => c.name == cn) with
    | none => rfl
    | some c =>
      have hname := List.find?_some hfind
      simp only []
      rw [show c.name = cn from by simpa using hname]

theorem unionWires_eq (cs : List Comp) (uf : UFS) (ws : List Wire) :
    unionWiresGN cs uf ws = unionWiresSim cs uf ws := by
  unfold unionWiresGN unionWiresSim
  simp only [epKey_eq]

theorem resolve_eq (d : Doc) : resolveGN d = resolveSim d := by
  simp only [resolveGN, resolveSim, unionWires_eq]

theorem wf_resolveGN (d : Doc) : WF (resolveGN d).1 := by
  rw [resolve_eq]
  exact wf_resolveSim d

/-! ### Un-threading the emission loop -/

theorem emitStep_eq (reps : List (String × String)) (acc : UFS × List String) (c : Comp) :
    emitStep reps acc c =
      ((find (find acc.1 (keyOf c .n1)).2 (keyOf c .n2)).2,
        acc.2 ++ [mkLine c ((lookupAssoc reps (find acc.1 (keyOf c .n1)).1).getD "0")
          ((lookupAssoc reps (find (find acc.1 (keyOf c .n1)).2 (keyOf c .n2)).1).getD "0")]) :=
  rfl

/-- The emission fold's threaded `find`s return the same node names as
fresh queries against the starting state, because compression preserves
reachability. -/
theorem emit_fold (reps : List (String × String)) (uf0 : UFS) (hwf0 : WF uf0) :
    ∀ (cs : List Comp) (uf : UFS) (acc : List String),
      (∀ k x, Reach uf k x ↔ Reach uf0 k x) →
      (cs.foldl (emitStep reps) (uf, acc)).2 =
        acc ++ cs.map (fun c =>
          mkLine c ((lookupAssoc reps (find uf0 (keyOf c .n1)).1).getD "0")
            ((lookupAssoc reps (find uf0 (keyOf c .n2)).1).getD "0")) := by
  intro cs
  induction cs with
  | nil =>
    intro uf acc _
    simp
  | cons c cs ih =>
    intro uf acc h
    have hwf : WF uf := wf_transfer uf0 uf (fun k x => (h k x).symm) hwf0
    obtain ⟨r1, hr1⟩ := hwf (keyOf c .n1)
    have hr1' : Reach uf0 (keyOf c .n1) r1 := (h _ _).mp hr1
    obtain ⟨f1, f2, _, _⟩ := find_spec uf (keyOf c .n1) r1 hr1
    have e1 : (find uf (keyOf c .n1)).1 = (find uf0 (keyOf c .n1)).1 := by
      rw [f1, (find_spec uf0 _ r1 hr1').1]
    have h2 : ∀ k x, Reach (find uf (keyOf c .n1)).2 k x ↔ Reach uf0 k x :=
      fun k x => (f2 k x).trans (h k x)
    have hwf1 : WF (find uf (keyOf c .n1)).2 :=
      wf_transfer uf0 _ (fun k x => (h2 k x).symm) hwf0
    obtain ⟨r2, hr2⟩ := hwf1 (keyOf c .n2)
    have hr2' : Reach uf0 (keyOf c .n2) r2 := (h2 _ _).mp hr2
    obtain ⟨g1, g2, _, _⟩ := find_spec (find uf (keyOf c .n1)).2 (keyOf c .n2) r2 hr2
    have e2 : (find (find uf (keyOf c .n1)).2 (keyOf c .n2)).1 =
        (find uf0 (keyOf c .n2)).1 := by
      rw [g1, (find_spec uf0 _ r2 hr2').1]
    have h3 : ∀ k x, Reach (find (find uf (keyOf c .n1)).2 (keyOf c .n2)).2 k x ↔
        Reach uf0 k x := fun k x => (g2 k x).trans (h2 k x)
    rw [List.foldl_cons, emitStep_eq, ih _ _ h3, e1, e2, List.map_cons]
    simp

/-- The payload fold appends one entry per component carrying `c.value`
verbatim. -/
theorem simStep_vals (reps : List (String × String)) :
    ∀ (cs : List Comp) (acc : UFS × List SimComp),
      ((cs.foldl (simStep reps) acc).2).map (·.value) =
        acc.2.map (·.value) ++ cs.map (·.value) := by
  intro cs
  induction cs with
  | nil =>
    intro acc
    simp
  | cons c cs ih =>
    intro acc
    rw [List.foldl_cons, ih, List.map_cons]
    have hsnd : (simStep reps acc c).2.map (·.value) = acc.2.map (·.value) ++ [c.value] := by
      unfold simStep
      simp
    rw [hsnd]
    simp

/-! ### Netlist line structure -/

/-- Every emitted line is `<name> <n1> <n2><sep><tail>` where the
separator carries the `DC` keyword exactly for sources. -/
theorem mkLine_struct (c : Comp) (n1 n2 : String) :
    mkLine c n1 n2 = c.name ++ " " ++ n1 ++ " " ++ n2 ++ dcSep c.type ++ lineTail c := by
  rcases c with ⟨ty, nm, a, b, v⟩
  cases ty
  case R => rfl
  case V => rfl
  case I => rfl
  case C => rfl
  case L => rfl
  case D =>
    show nm ++ " " ++ n1 ++ " " ++ n2 ++ " Dmodel" =
      nm ++ " " ++ n1 ++ " " ++ n2 ++ " " ++ "Dmodel"
    rw [String.append_assoc (nm ++ " " ++ n1 ++ " " ++ n2) " " "Dmodel"]
    rw [show (" " ++ "Dmodel" : String) = " Dmodel" from by decide]

theorem dcSep_iff (t : CType) : dcSep t = " DC " ↔ (t = .V ∨ t = .I) := by
  cases t <;> simp [dcSep]

/-! ### autoNodes preservation across editor operations -/

theorem autoCanonical_of_eq (s t : EState) (h : t.autoNodes = s.autoNodes)
    (hc : AutoCanonical s) : AutoCanonical t := by
  unfold AutoCanonical at *
  rw [h]
  exact hc

theorem handleWirePortClick_autoNodes (s : EState) (cname : String) (sl : Slot) :
    (handleWirePortClick s cname sl).autoNodes = s.autoNodes := by
  unfold handleWirePortClick
  (repeat' split) <;> rfl

theorem getOrCreate_activePort (s : EState) (x y : Int) :
    (getOrCreateNodeAt s x y).2.activePort = s.activePort := by
  unfold getOrCreateNodeAt
  dsimp only
  split <;> rfl

theorem handleWireNodeClick_autoNodes_none (s : EState) (nid : String)
    (h : s.activePort = none) : (handleWireNodeClick s nid).autoNodes = s.autoNodes := by
  unfold handleWireNodeClick
  rw [h]

theorem handleWireNodeClick_autoNodes_port (s : EState) (nid ac : String) (asl : Slot)
    (h : s.activePort = some (.port ac asl)) :
    (handleWireNodeClick s nid).autoNodes = s.autoNodes := by
  unfold handleWireNodeClick
  rw [h]

theorem getOrCreate_canonical (s : EState) (x y : Int) (h : AutoCanonical s) :
    AutoCanonical (getOrCreateNodeAt s x y).2 := by
  unfold getOrCreateNodeAt
  dsimp only
  split
  · exact h
  · unfold AutoCanonical at *
    simp only [List.map_append, List.length_append, List.map_cons, List.map_nil,
      List.length_cons, List.length_nil]
    rw [h, List.range_succ, List.map_append]
    simp

theorem nId_succ_inj : Function.Injective (fun i : Nat => "N" ++ decRepr (i + 1)) := by
  intro a b hab
  have := nId_inj (a + 1) (b + 1) hab
  omega

theorem canonical_nodup (s : EState) (h : AutoCanonical s) :
    (s.autoNodes.map (·.id)).Nodup := by
  rw [h]
  exact (List.nodup_range _).map nId_succ_inj

/-- A merge-free editor step preserves the canonical junction list. -/
theorem stepNM_preserves (s t : EState) (st : StepNM s t) (h : AutoCanonical s) :
    AutoCanonical t := by
  cases st with
  | place ty => exact autoCanonical_of_eq s _ rfl h
  | gnd cname sl => exact autoCanonical_of_eq s _ rfl h
  | portClickW cname sl =>
    exact autoCanonical_of_eq s _ (handleWirePortClick_autoNodes s cname sl) h
  | canvasClickW x y hna =>
    have h1 : AutoCanonical (getOrCreateNodeAt s x y).2 := getOrCreate_canonical s x y h
    cases hap : s.activePort with
    | none =>
      refine autoCanonical_of_eq _ _ ?_ h1
      exact handleWireNodeClick_autoNodes_none _ _ (by rw [getOrCreate_activePort, hap])
    | some a =>
      cases a with
      | node nid => exact absurd hap (hna nid)
      | port ac asl =>
        refine autoCanonical_of_eq _ _ ?_ h1
        exact handleWireNodeClick_autoNodes_port _ _ ac asl
          (by rw [getOrCreate_activePort, hap])
  | escape => exact autoCanonical_of_eq s _ rfl h
  | delWire wid => exact autoCanonical_of_eq s _ rfl h
  | delComp cname => exact autoCanonical_of_eq s _ rfl h
  | editLbl cname sl v => exact autoCanonical_of_eq s _ rfl h
  | editVal cname v => exact autoCanonical_of_eq s _ rfl h
  | clear =>
    unfold AutoCanonical clearAll
    simp

/-- In merge-free reachable states the junction list is canonical. -/
theorem reachableNM_canonical (s : EState) (h : ReachableNM s) : AutoCanonical s := by
  unfold ReachableNM at h
  induction h with
  | refl =>
    unfold AutoCanonical initState
    simp
  | tail _ step ih => exact stepNM_preserves _ _ step ih

/-! ## Claim theorems -/

/-- C1: the claim says a terminal explicitly labelled `"0"` always pulls
its whole partition to node `"0"` regardless of wire order and of its
position in declaration order.  The code violates this: in the reachable
state `c1state` (two resistors, wire drawn from `R1.n1` to `R2.n1`, then
the ground tool applied to `R2.n1`), the grounded terminal `R2.n1`
(identity key `"0"`) resolves to `"N1"` in `computeNetMapping`, in the
netlist builder and in the probe resolver — because the reps pass only
consults the first terminal that introduces a partition's
representative. -/
theorem c1_ground_lost_eval :
    Reachable c1state ∧
    c1state.doc.comps = [⟨.R, "R1", some "R1_n1", some "R1_n2", some 1000⟩, c1R2] ∧
    labelAt c1R2 .n1 = some "0" ∧
    gnNode c1state.doc c1R2 .n1 = "N1" ∧
    (probePort c1state.doc c1R2 .n1 []).1 = "N1" ∧
    lookupAssoc (computeNetMapping c1state.doc) "0" = some "N1" := by
  refine ⟨?_, by decide, by decide, by decide, by decide, by decide⟩
  exact Relation.ReflTransGen.tail
    (Relation.ReflTransGen.tail
      (Relation.ReflTransGen.tail
        (Relation.ReflTransGen.tail
          (Relation.ReflTransGen.tail Relation.ReflTransGen.refl
            (Step.place initState .R))
          (Step.place _ .R))
        (Step.portClickW _ "R1" .n1))
      (Step.portClickW _ "R2" .n1))
    (Step.gnd _ "R2" .n1)

/-- C2: the claim says deleting the sole wire joining two partitions
splits them into differently-named nodes on the next pass.  The code
violates this: drawing the wire rewrote both terminals' labels to the
shared key `"R1_n2"`, and this survives the deletion, so after deleting
the only wire the two terminals still resolve to the same node `"N2"`
(before any wire was drawn they resolved to distinct nodes `"N2"` and
`"N3"`). -/
theorem c2_stale_merge_eval :
    Reachable c2post ∧
    c2pre.wires = [⟨"W1", .port "R1" .n2, .port "R2" .n1⟩] ∧
    c2post = deleteWire c2pre "W1" ∧
    c2post.wires = [] ∧
    c2post.comps = [c2R1, c2R2] ∧
    (probePort c2post.doc c2R1 .n2 []).1 = "N2" ∧
    (probePort c2post.doc c2R2 .n1 []).1 = "N2" ∧
    (probePort c2base.doc ⟨.R, "R1", some "R1_n1", some "R1_n2", some 1000⟩ .n2 []).1 = "N2" ∧
    (probePort c2base.doc ⟨.R, "R2", some "R2_n1", some "R2_n2", some 1000⟩ .n1 []).1 = "N3" := by
  refine ⟨?_, by decide, rfl, by decide, by decide, by decide, by decide, by decide, by decide⟩
  exact Relation.ReflTransGen.tail
    (Relation.ReflTransGen.tail
      (Relation.ReflTransGen.tail
        (Relation.ReflTransGen.tail Relation.ReflTransGen.refl
          (Step.place initState .R))
        (Step.place _ .R))
      (Step.portClickW _ "R1" .n2))
    (Step.portClickW _ "R2" .n1)
    |>.tail (Step.delWire _ "W1")

/-- C3: the netlist builder and the probe resolver assign the same node
name to every terminal of every document (the two passes differ only in
the spelling of the wire-endpoint fallback key, which is proved equal). -/
theorem c3_netlist_probe_agree (d : Doc) (c : Comp) (sl : Slot) (nv : List (String × ℚ)) :
    (probePort d c sl nv).1 = gnNode d c sl := by
  unfold probePort gnNode
  rw [resolve_eq]

/-- C4 (counterexample): for the component `R1` with missing value, the
netlist text substitutes the default `1000`, but the solver payload does
NOT substitute — it carries the missing value through — refuting the
claim that every output path substitutes the default. -/
theorem c4_payload_counterexample :
    generateNetlist c4doc = "R1 N1 N2 1000" ∧
    runSim c4doc = [⟨.R, "R1", "N1", "N2", none⟩] ∧
    (runSim c4doc).map (·.value) ≠ [some (defaultValue .R)] := by
  refine ⟨by decide, by decide, by decide⟩

/-- C4 (amended): for a component whose value is missing — which is also
how the editor's value panel stores an invalid edit (line 450 stores
`undefined` when `parseFloat` yields `NaN`) — the netlist text
substitutes the documented type-specific default (R 1000, V 5, I 0.001,
C 1e-6, L 1e-3) with no hard failure, while the solver payload does not
substitute: it passes every component's value field through unchanged,
so a missing value stays missing in the payload. -/
theorem c4_amended_defaults :
    (∀ c : Comp, c.value = none → c.type ≠ .D →
      lineTail c = numStr (defaultValue c.type)) ∧
    (∀ d : Doc, (runSim d).map (·.value) = d.comps.map (·.value)) := by
  constructor
  · intro c hv ht
    rcases c with ⟨ty, nm, a, b, v⟩
    simp only at hv
    subst hv
    cases ty
    case D => exact absurd rfl ht
    all_goals rfl
  · intro d
    unfold runSim
    rw [simStep_vals]
    simp

/-- C4 witness. -/
theorem c4_amended_defaults_witness :
    lineTail ⟨.R, "R1", none, none, none⟩ = numStr (defaultValue .R) ∧
    (runSim c4doc).map (·.value) = c4doc.comps.map (·.value) :=
  ⟨c4_amended_defaults.1 ⟨.R, "R1", none, none, none⟩ rfl (by decide),
   c4_amended_defaults.2 c4doc⟩

/-- C5: the voltage-divider scenario resolves exactly as specified —
`V1.n1→"0"`, `V1.n2/R1.n1→"N1"`, `R1.n2/R2.n1→"N2"`, `R2.n2→"0"` — and
the solver payload is exactly
`[{V,V1,0,N1,5}, {R,R1,N1,N2,1000}, {R,R2,N2,0,1000}]`. -/
theorem c5_voltage_divider_scenario :
    runSim c5doc = [⟨.V, "V1", "0", "N1", some 5⟩, ⟨.R, "R1", "N1", "N2", some 1000⟩,
      ⟨.R, "R2", "N2", "0", some 1000⟩] ∧
    lookupAssoc (computeNetMapping c5doc) "0" = some "0" ∧
    lookupAssoc (computeNetMapping c5doc) "V1_n2" = some "N1" ∧
    lookupAssoc (computeNetMapping c5doc) "R1_n1" = some "N1" ∧
    lookupAssoc (computeNetMapping c5doc) "R1_n2" = some "N2" ∧
    lookupAssoc (computeNetMapping c5doc) "R2_n1" = some "N2" ∧
    lookupAssoc (computeNetMapping c5doc) "R2_n2" = some "0" := by
  refine ⟨by decide, by decide, by decide, by decide, by decide, by decide, by decide⟩

/-- C6: node-name assignment is a pure function of the document —
identical documents yield identical mappings, so running the pass twice
without an intervening edit yields identical node names (the pass
rebuilds all of its state locally and mutates nothing). -/
theorem c6_resolution_pure (d₁ d₂ : Doc) (h : d₁ = d₂) :
    computeNetMapping d₁ = computeNetMapping d₂ := by
  rw [h]

/-- C6 witness. -/
theorem c6_resolution_pure_witness :
    computeNetMapping c5doc = computeNetMapping c5doc :=
  c6_resolution_pure c5doc c5doc rfl

/-- C7: on the union-find state built from a document's wires (as
`runSim`/`probePort` build it), two `find` queries agree exactly when the
two identity keys are joined by a chain of wires — transitively,
junctions included, since junction ids are themselves keys in the
chain. -/
theorem c7_find_iff_wire_connected (d : Doc) (a b : String) :
    (find (simUF d) a).1 = (find (find (simUF d) a).2 b).1 ↔ Conn (wirePairs d) a b := by
  rw [find_query (simUF d) (wf_simUF d) a b]
  exact simUF_conn d a b

/-- C8 (counterexample): probing the isolated terminal `R1.n1` (node
`"N1"`) when the cached result maps only ground to `3` volts returns `3`,
not the claimed `0`: the code falls back to `node_voltages['0']` before
`0`. -/
theorem c8_ground_fallback_counterexample :
    (probePort c8doc c8comp .n1 [("0", 3)]).1 = "N1" ∧
    lookupAssoc [("0", (3 : ℚ))] "N1" = none ∧
    (probePort c8doc c8comp .n1 [("0", 3)]).2 = 3 ∧
    (probePort c8doc c8comp .n1 [("0", 3)]).2 ≠ 0 := by
  refine ⟨by decide, by decide, by decide, by decide⟩

/-- C8 (amended): when the resolved node name is absent from the cached
`node_voltages` map, the probe returns the voltage recorded for ground
`"0"` when that is present, and `0` only otherwise. -/
theorem c8_amended_fallback (d : Doc) (c : Comp) (sl : Slot) (nv : List (String × ℚ))
    (h : lookupAssoc nv (probePort d c sl nv).1 = none) :
    (probePort d c sl nv).2 = (lookupAssoc nv "0").getD 0 := by
  unfold probePort at h ⊢
  dsimp only at h ⊢
  rw [h]
  cases hl : lookupAssoc nv "0" <;> simp [Option.orElse]

/-- C8 witness. -/
theorem c8_amended_fallback_witness :
    (probePort c8doc c8comp .n1 [("0", 3)]).2 = (lookupAssoc [("0", (3 : ℚ))] "0").getD 0 :=
  c8_amended_fallback c8doc c8comp .n1 [("0", 3)] (by decide)

/-- C9: the netlist text is exactly one line per component in declaration
order; each line is `<name> <n1> <n2><sep><tail>` where the separator
carries the `DC` keyword exactly for voltage/current sources (the diode
line's trailing token is the literal model name `Dmodel`). -/
theorem c9_netlist_line_form :
    (∀ d : Doc, generateNetlist d = String.intercalate "\n"
      (d.comps.map (fun c => mkLine c (gnNode d c .n1) (gnNode d c .n2)))) ∧
    (∀ (c : Comp) (n1 n2 : String),
      mkLine c n1 n2 = c.name ++ " " ++ n1 ++ " " ++ n2 ++ dcSep c.type ++ lineTail c) ∧
    (∀ t : CType, dcSep t = " DC " ↔ (t = .V ∨ t = .I)) := by
  refine ⟨?_, mkLine_struct, dcSep_iff⟩
  intro d
  show String.intercalate "\n"
      ((d.comps.foldl (emitStep (resolveGN d).2) ((resolveGN d).1, [])).2) = _
  rw [emit_fold (resolveGN d).2 (resolveGN d).1 (wf_resolveGN d) d.comps (resolveGN d).1 []
    (fun k x => Iff.rfl)]
  rfl

/-- C10 (counterexample): in the reachable state `c10e` (create three
junctions, merge `N1` with `N2` — which drops `N2` and shrinks the list —
then create a junction at a fresh point) the junction list carries the
duplicate id `N3` twice, refuting the claimed id-distinctness
invariant. -/
theorem c10_duplicate_ids_counterexample :
    Reachable c10e ∧
    c10e.autoNodes.map (·.id) = ["N1", "N3", "N3"] ∧
    ¬ (c10e.autoNodes.map (·.id)).Nodup := by
  refine ⟨?_, by decide, by decide⟩
  exact Relation.ReflTransGen.tail
    (Relation.ReflTransGen.tail
      (Relation.ReflTransGen.tail
        (Relation.ReflTransGen.tail
          (Relation.ReflTransGen.tail
            (Relation.ReflTransGen.tail
              (Relation.ReflTransGen.tail
                (Relation.ReflTransGen.tail
                  (Relation.ReflTransGen.tail Relation.ReflTransGen.refl
                    (Step.canvasClickW initState 0 0))
                  (Step.escape _))
                (Step.canvasClickW _ 20 0))
              (Step.escape _))
            (Step.canvasClickW _ 40 0))
          (Step.escape _))
        (Step.canvasClickW _ 0 0))
      (Step.canvasClickW _ 20 0))
    (Step.canvasClickW _ 60 0)

/-- C10 (amended): `getOrCreateNodeAt` at a coordinate snapping to an
existing junction's grid point returns that junction's id without
creating a new entry; and in editor states reachable without
junction–junction merges the junction list is exactly `N1 … Nk` in
creation order, hence its ids are distinct.  (After a merge the
distinctness can fail, per the counterexample.) -/
theorem c10_amended_ids :
    (∀ (s : EState) (x y : Int) (nd : NodeJ),
        s.autoNodes.find? (fun n => n.x == snap x && n.y == snap y) = some nd →
        getOrCreateNodeAt s x y = (nd.id, s)) ∧
    (∀ s : EState, ReachableNM s →
        AutoCanonical s ∧ (s.autoNodes.map (·.id)).Nodup) := by
  constructor
  · intro s x y nd h
    unfold getOrCreateNodeAt
    dsimp only
    rw [h]
  · intro s h
    have hc := reachableNM_canonical s h
    exact ⟨hc, canonical_nodup s hc⟩

/-- C10 witness. -/
theorem c10_amended_ids_witness :
    getOrCreateNodeAt c10w 0 0 = ("N1", c10w) ∧
    (AutoCanonical c10w ∧ (c10w.autoNodes.map (·.id)).Nodup) := by
  constructor
  · exact c10_amended_ids.1 c10w 0 0 ⟨"N1", 0, 0⟩ (by decide)
  · refine c10_amended_ids.2 c10w ?_
    refine Relation.ReflTransGen.tail Relation.ReflTransGen.refl
      (StepNM.canvasClickW initState 0 0 ?_)
    intro nid h
    simp [initState] at h

end Circuit
